import Mathlib

/-!
Shallow embedding of the pinoq encrypted-filesystem core
(src/pinoq/mod.rs, fs.rs, filefmt.rs, encryption.rs, error.rs).

Bytes are modelled as `Nat` (values mod 256 where relevant), byte strings as
`List Nat`, and bit vectors as `List Bool` (bitvec `Lsb0` order).  The AES
primitive lives in the external openssl crate, so ciphertexts are modelled
symbolically; everything the repository's own code does with them is
translated directly from the source.
-/

/-- `BLOCK_SIZE` from filefmt.rs: `1 << 10`. -/
def BLOCK_SIZE : Nat := 1 <<< 10

/-- `MAGIC` from filefmt.rs: `0x504E4F51u32` ("PNOQ"). -/
def MAGIC : Nat := 0x504E4F51

/-- Linux `libc::ENOENT`. -/
def ENOENT : Int := 2

/-- Linux `libc::ENOTDIR`. -/
def ENOTDIR : Int := 20

/-- Linux `libc::ENOSPC`. -/
def ENOSPC : Int := 28

/-- Linux `libc::EIO`. -/
def EIO_errno : Int := 5

/-- Linux `libc::S_IFDIR` (octal 0o040000). -/
def S_IFDIR : Nat := 16384

/-- Linux `libc::S_IFREG` (octal 0o100000). -/
def S_IFREG : Nat := 32768

/-- `PinoqError` from error.rs.  The payloads of `IO(std::io::Error)` and
`Serialization(bincode::Error)` are dropped: no code path of the core inspects
them, only the variant.  The `IO` variant is named `IOErr` here. -/
inductive PinoqError where
  | NoEntry
  | NoDirectory
  | NoEnoughSpace
  | IOErr
  | Serialization
  | InvalidConfig
deriving DecidableEq

/-- `PinoqError::to_code` from error.rs.  The source match lists `NoEntry`,
`NoDirectory`, `NoEnoughSpace` and `IO(_)` and sends everything else
(`Serialization`, `InvalidConfig`) to `-1` through the wildcard arm. -/
def PinoqError.to_code : PinoqError → Int
  | .NoEntry => ENOENT
  | .NoDirectory => ENOTDIR
  | .NoEnoughSpace => ENOSPC
  | .IOErr => EIO_errno
  | .Serialization => -1
  | .InvalidConfig => -1

/-- Outcome of running a fallible piece of Rust: either a value, a
`PinoqError` propagated with `?`, or a panic (`unwrap`/`assert!`/slice
indexing), which never reaches a caller as an error value. -/
inductive RFail where
  | panicked
  | raised (e : PinoqError)
deriving DecidableEq

/-- Result type of the embedded Rust functions. -/
abbrev RRes (α : Type) : Type := Except RFail α

deriving instance DecidableEq for Except

/-- `true` exactly on an `ok` result. -/
def resultIsOk {α : Type} : RRes α → Bool
  | .ok _ => true
  | .error _ => false

/-- `Key` from encryption.rs (`[u8; 32]`); the fixed length 32 is a list-length
invariant here rather than a type index. -/
structure Key where
  bytes : List Nat
deriving DecidableEq

/-- `IV` from encryption.rs (`[u8; 16]`). -/
structure IV where
  bytes : List Nat
deriving DecidableEq

/-- `IV::from_bytes`: copy `min(len, 16)` bytes of the seed into a zeroed
16-byte buffer. -/
def IV.from_bytes (s : List Nat) : IV :=
  ⟨s.take 16 ++ List.replicate (16 - s.length) 0⟩

/-- Symbolic model of an AES-256-CBC ciphertext produced by the external
openssl crate: `enc` records the plaintext, key and IV that produced it,
`raw` stands for on-disk bytes that were not produced by `encrypt`. -/
inductive Ciphertext where
  | enc (plain : List Nat) (key : Key) (iv : IV)
  | raw (bytes : List Nat)
deriving DecidableEq

/-- Byte length of an AES-256-CBC ciphertext with PKCS padding for an
`l`-byte plaintext: the spec's `ceil((l+1)/16)*16`. -/
def pkcsLen (l : Nat) : Nat := (l / 16 + 1) * 16

/-- Byte length of a symbolic ciphertext. -/
def ciphertextLen : Ciphertext → Nat
  | .enc p _ _ => pkcsLen p.length
  | .raw b => b.length

/-- CBC malleability model: decrypting under the IV `ivNew` a ciphertext made
under `ivOld` garbles exactly the first 16 plaintext bytes (each is XORed with
both IVs); with equal IVs the plaintext is returned unchanged. -/
def garble (p ivOld ivNew : List Nat) : List Nat :=
  List.zipWith (fun a b => a ^^^ b)
    (List.zipWith (fun a b => a ^^^ b) (p.take 16) ivOld) ivNew ++ p.drop 16

/-- Model of the openssl AES-256-CBC decryption call
(`Crypter::update` + `finalize`): with the matching key the padding check
succeeds and the plaintext (first block garbled if the IV differs) is
returned; with a wrong key, or on bytes that are not a CBC ciphertext, the
padding check fails and openssl reports an error. -/
def opensslDecrypt (c : Ciphertext) (k : Key) (iv : IV) : Option (List Nat) :=
  match c with
  | .enc p k' iv' => if k = k' then some (garble p iv'.bytes iv.bytes) else none
  | .raw _ => none

/-- `encrypt` from encryption.rs (the panics inside it are unreachable for
well-formed keys, so it is total here). -/
def encrypt (data : List Nat) (key : Key) (iv : IV) : Ciphertext :=
  .enc data key iv

/-- `decrypt` from encryption.rs: it returns a bare `Vec<u8>` and calls
`.unwrap()` on the openssl results, so a padding failure is a panic, never an
error value. -/
def decrypt (encrypted_data : Ciphertext) (key : Key) (iv : IV) : RRes (List Nat) :=
  match opensslDecrypt encrypted_data key iv with
  | some d => .ok d
  | none => .error .panicked

/-- `SuperBlock` from filefmt.rs. -/
structure SuperBlock where
  magic : Nat
  aspects : Nat
  blocks : Nat
  uid : Nat
  gid : Nat
deriving DecidableEq

/-- `SuperBlock::new`. -/
def SuperBlock.new (aspects blocks uid gid : Nat) : SuperBlock :=
  ⟨MAGIC, aspects, blocks, uid, gid⟩

/-- `EncryptedAspect` from filefmt.rs: a cleartext wrap key plus the
ciphertext of the aspect record. -/
structure EncryptedAspect where
  key : Key
  encrypted_data : Ciphertext
deriving DecidableEq

/-- `EncryptedAspect::size_of` from filefmt.rs, verbatim:
`((n as usize) / 8) + 88` (the FIXME-marked hardcoded formula). -/
def EncryptedAspect.size_of (n : Nat) : Nat := n / 8 + 88

/-- Actual bincode-encoded byte size of an `EncryptedAspect`: 32 bytes of
wrap key (fixed array, no prefix), a `u64` length prefix, and the
ciphertext bytes. -/
def EncryptedAspect.encoded_len (ea : EncryptedAspect) : Nat :=
  32 + 8 + ciphertextLen ea.encrypted_data

/-- `mem::size_of::<SuperBlock>()`: five `u32` fields, 20 bytes. -/
def sizeOfSuperBlockStruct : Nat := 20

/-- `mem::size_of::<Block>()` on the 64-bit targets the crate builds for:
`Block` holds a `Vec<u8>` (three 8-byte words, alignment 8) and a `u32`,
so the in-memory struct is 24 + 4 bytes padded to 32 — not an on-disk size. -/
def sizeOfBlockStruct : Nat := 32

/-- `get_block_offset` from mod.rs:
`size_of::<SuperBlock>() + EncryptedAspect::size_of(blocks) * aspects + size_of::<Block>() * n`. -/
def get_block_offset (aspects blocks n : Nat) : Nat :=
  sizeOfSuperBlockStruct + EncryptedAspect.size_of blocks * aspects + sizeOfBlockStruct * n

/-- `get_aspect_offset` from mod.rs. -/
def get_aspect_offset (blocks n : Nat) : Nat :=
  sizeOfSuperBlockStruct + EncryptedAspect.size_of blocks * n

/-- The volume length `mkfs` in mod.rs sets with `file.set_len`:
`get_block_offset(aspects, blocks, blocks)`. -/
def mkfs_length (aspects blocks : Nat) : Nat :=
  get_block_offset aspects blocks blocks

/-- Plaintext byte length of a serialized aspect with a `B`-bit block map:
32 key bytes, 4 root-block bytes, `ceil(B/8)` bitmap bytes. -/
def aspectPlainLen (B : Nat) : Nat := 32 + 4 + (B + 7) / 8

/-- Exact encoded size of an `EncryptedAspect` holding a `B`-bit block map,
derived from the codec: plaintext `aspectPlainLen B`, PKCS-padded to
`pkcsLen`, plus the 32 + 8 bytes of bincode framing. -/
def encryptedAspectExactSize (B : Nat) : Nat :=
  32 + 8 + pkcsLen (aspectPlainLen B)

/-- Big-endian bytes of a `u32` (`u32::to_be_bytes`). -/
def natToBeBytes4 (n : Nat) : List Nat :=
  [n / 16777216 % 256, n / 65536 % 256, n / 256 % 256, n % 256]

/-- `u32::from_be_bytes` on a 4-byte buffer. -/
def beBytesToNat (l : List Nat) : Nat :=
  l.foldl (fun acc b => acc * 256 + b) 0

/-- Value of up to 8 bits in `Lsb0` order (bit 0 is the least significant). -/
def byteOfBits (bs : List Bool) : Nat :=
  bs.foldr (fun b acc => (if b then 1 else 0) + 2 * acc) 0

/-- The 8 bits of a byte in `Lsb0` order. -/
def bitsOfByte (n : Nat) : List Bool :=
  [n.testBit 0, n.testBit 1, n.testBit 2, n.testBit 3,
   n.testBit 4, n.testBit 5, n.testBit 6, n.testBit 7]

/-- Fuelled splitting of a list into chunks of `k` elements (`slice::chunks`);
the fuel is instantiated with the list length so the definition reduces by
kernel computation. -/
def chunksOfF {α : Type} (k : Nat) : Nat → List α → List (List α)
  | _, [] => []
  | 0, _ :: _ => []
  | fuel + 1, x :: xs => (x :: xs).take k :: chunksOfF k fuel ((x :: xs).drop k)

/-- `slice::chunks(k)` as a list of chunks. -/
def chunksOf {α : Type} (k : Nat) (l : List α) : List (List α) :=
  chunksOfF k l.length l

/-- `BitVec::<u8, Lsb0>::as_raw_slice()`: the bits packed into bytes, the last
byte zero-padded. -/
def bitsToBytesLsb0 (bs : List Bool) : List Nat :=
  (chunksOf 8 bs).map byteOfBits

/-- `BitVec::<u8, Lsb0>::from_slice`: every byte contributes 8 bits, so the
resulting bit vector always has `8 * (number of bytes)` bits — the source
never truncates it back to the superblock's `blocks` count. -/
def bytesToBitsLsb0 (l : List Nat) : List Bool :=
  (l.map bitsOfByte).flatten

/-- `Aspect` from filefmt.rs (the in-memory plaintext record). -/
structure Aspect where
  key : Key
  root_block : Nat
  block_map : List Bool
deriving DecidableEq

/-- `Aspect::has_root_block`: `root_block != 0xFFFFFFFF`. -/
def Aspect.has_root_block (a : Aspect) : Bool :=
  a.root_block ≠ 0xFFFFFFFF

/-- `Aspect::serialize`: `key || root_block.to_be_bytes() || block_map.as_raw_slice()`. -/
def Aspect.serialize (a : Aspect) : List Nat :=
  a.key.bytes ++ natToBeBytes4 a.root_block ++ bitsToBytesLsb0 a.block_map

/-- Model of `rand::fill` for a 32-byte key: the mount state carries a counter
that is bumped on every draw, so successive keys are distinct (freshness) while
staying a concrete function. -/
def random_key (ctr : Nat) : Key :=
  ⟨List.replicate 31 0 ++ [ctr]⟩

/-- `Aspect::to_encrypted_aspect`, with the freshly drawn wrap key passed in:
serialize, derive the IV from the password bytes, encrypt under the wrap key. -/
def Aspect.to_encrypted_aspect (a : Aspect) (password : List Nat) (wrap : Key) :
    EncryptedAspect :=
  { key := wrap, encrypted_data := encrypt a.serialize wrap (IV.from_bytes password) }

/-- `Aspect::from_encrypted_aspect`: decrypt with the slot's own wrap key and
the password-derived IV (both `.unwrap()`s inside `decrypt` panic on a padding
failure), then split the plaintext by `copy_from_slice` — which panics when
fewer than 36 bytes came back — into key, big-endian root block and bitmap.
No length or range validation is performed on any of the three parts. -/
def Aspect.from_encrypted_aspect (ea : EncryptedAspect) (password : List Nat) :
    RRes Aspect :=
  match decrypt ea.encrypted_data ea.key (IV.from_bytes password) with
  | .error f => .error f
  | .ok d =>
    if d.length < 36 then .error .panicked
    else .ok { key := ⟨d.take 32⟩
             , root_block := beBytesToNat ((d.drop 32).take 4)
             , block_map := bytesToBitsLsb0 (d.drop 36) }

/-- `Aspect::new`: fresh data key, uninitialized root, all-zero `blocks`-bit map. -/
def Aspect.new (blocks : Nat) (key : Key) : Aspect :=
  { key := key, root_block := 0xFFFFFFFF, block_map := List.replicate blocks false }

/-- `INode` from filefmt.rs. -/
structure INode where
  mode : Nat
  size : Nat
  block_size : Nat
  uid : Nat
  gid : Nat
  data_block : Nat
deriving DecidableEq

/-- `INode::new(mode, uid, gid)` with the remaining fields defaulted to zero. -/
def INode.new (mode uid gid : Nat) : INode :=
  { mode := mode, size := 0, block_size := 0, uid := uid, gid := gid, data_block := 0 }

/-- `INode::is_dir`: `mode & S_IFDIR != 0`. -/
def INode.is_dir (i : INode) : Bool :=
  i.mode &&& S_IFDIR ≠ 0

/-- `Dir` from filefmt.rs; the `BTreeMap` is modelled as its entry list. -/
structure Dir where
  entries : List (String × Nat)
deriving DecidableEq

/-- `Block` from filefmt.rs: a chained data block. -/
structure Block where
  next_block : Nat
  data : List Nat
deriving DecidableEq

/-- One typed record as held by a 1 KiB block slot.  fs.rs reads and writes
blocks through `to_encrypted_block`/`from_encrypted_block`, which are a
round-tripping codec for a fixed key and block index, so the block region of
the mmap is modelled at record granularity; `Block`'s byte codec
(`PinoqSerialize`) is not part of the snapshot and is not needed at this
granularity. -/
inductive StoredRec where
  | inode (v : INode)
  | dir (v : Dir)
  | blk (v : Block)
deriving DecidableEq

/-- First-match association lookup (`HashMap::get` observably). -/
def assocGet {α : Type} : List (Nat × α) → Nat → Option α
  | [], _ => none
  | (k, v) :: rest, n => if k = n then some v else assocGet rest n

/-- `FileDescriptor` from fs.rs: the per-handle chain cursor. -/
structure FileDescriptor where
  next_block : Option Nat
deriving DecidableEq

/-- `Current` from config.rs (the fields the core consumes). -/
structure Config where
  current_aspect : Nat
  password : List Nat
deriving DecidableEq

/-- The block region of the mmap at record granularity: newest insertion
first, `assocGet` reads the newest record for an index. -/
abbrev BlockStore := List (Nat × StoredRec)

/-- The mounted filesystem `PinoqFs` from fs.rs.  The mmap is split into its
three regions (superblock, aspect slots, block region); `keyctr` is the
randomness source for wrap keys. -/
structure PinoqSt where
  config : Config
  sblock : SuperBlock
  aspect : Aspect
  block_map : List Bool
  fd_manager : List (Nat × FileDescriptor)
  store : BlockStore
  slots : List EncryptedAspect
  keyctr : Nat
deriving DecidableEq

/-- Index of the first `false` bit (`iter().position(|x| !*x)`). -/
def findFreeIdx : List Bool → Option Nat
  | [] => none
  | b :: rest => if b then (findFreeIdx rest).map (· + 1) else some 0

/-- `PinoqFs::find_free_block`. -/
def find_free_block (s : PinoqSt) : Option Nat :=
  findFreeIdx s.block_map

/-- `PinoqFs::allocate_block`: first free index of the global map, marked in
both the global map and the current aspect's map. -/
def allocate_block (s : PinoqSt) : RRes (Nat × PinoqSt) :=
  match find_free_block s with
  | none => .error (.raised .NoEnoughSpace)
  | some index =>
    .ok (index,
      { s with block_map := s.block_map.set index true
             , aspect := { s.aspect with block_map := s.aspect.block_map.set index true } })

/-- `PinoqFs::store_to_block` at record granularity (the seek/encode/encrypt
pipeline of fs.rs always succeeds for in-range offsets, see `StoredRec`). -/
def store_to_block (s : PinoqSt) (t : StoredRec) (n : Nat) : PinoqSt :=
  { s with store := (n, t) :: s.store }

/-- `PinoqFs::get_from_block::<INode>`: decoding the bytes at slot `n` as an
inode.  A slot that holds a record of a different type was encrypted with the
same key and the same index-derived IV, so it decrypts cleanly and the bincode
decode of the wrong-shaped plaintext surfaces as a `Serialization` error.  A
slot that was never written holds zero bytes: `EncryptedBlock::deserialize`
reads a zero-length ciphertext and `decrypt`'s `unwrap` on the openssl result
panics — the load of an undecryptable slot is a panic, not an error value. -/
def getINode (s : PinoqSt) (n : Nat) : RRes INode :=
  match assocGet s.store n with
  | some (.inode v) => .ok v
  | some _ => .error (.raised .Serialization)
  | none => .error .panicked

/-- `PinoqFs::get_from_block::<Dir>` (failure modes as in `getINode`). -/
def getDir (s : PinoqSt) (n : Nat) : RRes Dir :=
  match assocGet s.store n with
  | some (.dir v) => .ok v
  | some _ => .error (.raised .Serialization)
  | none => .error .panicked

/-- `PinoqFs::get_from_block::<Block>` (failure modes as in `getINode`). -/
def getBlock (s : PinoqSt) (n : Nat) : RRes Block :=
  match assocGet s.store n with
  | some (.blk v) => .ok v
  | some _ => .error (.raised .Serialization)
  | none => .error .panicked

/-- `PinoqFs::store_aspect`: seal the given aspect with a fresh wrap key and
write it into slot `n`. -/
def store_aspect (s : PinoqSt) (a : Aspect) (n : Nat) : PinoqSt :=
  { s with slots := s.slots.set n (a.to_encrypted_aspect s.config.password (random_key s.keyctr))
         , keyctr := s.keyctr + 1 }

/-- `PinoqFs::get_aspect`: decrypt slot `n` with the mount password (reading
past the slot region yields undecodable bytes). -/
def get_aspect (s : PinoqSt) (n : Nat) : RRes Aspect :=
  match s.slots.get? n with
  | none => .error (.raised .Serialization)
  | some ea => Aspect.from_encrypted_aspect ea s.config.password

/-- Pointwise OR keeping the left length (`self.block_map |= aspect.block_map`
with the global map as the left operand). -/
def orBits : List Bool → List Bool → List Bool
  | [], _ => []
  | x :: xs, [] => x :: xs
  | x :: xs, y :: ys => (x || y) :: orBits xs ys

/-- `PinoqFs::construct_block_map`, the pure fold: start from `blocks` zero
bits and OR in every aspect's map, each slot decrypted with the one mount
password. -/
def construct_block_map_pure (slots : List EncryptedAspect) (password : List Nat)
    (aspects blocks : Nat) : RRes (List Bool) :=
  (List.range aspects).foldlM
    (fun acc i =>
      match slots.get? i with
      | none => .error (.raised .Serialization)
      | some ea =>
        match Aspect.from_encrypted_aspect ea password with
        | .error f => .error f
        | .ok a => .ok (orBits acc a.block_map))
    (List.replicate blocks false)

/-- `PinoqFs::construct_block_map` acting on the mount state. -/
def construct_block_map (s : PinoqSt) : RRes PinoqSt :=
  match construct_block_map_pure s.slots s.config.password s.sblock.aspects s.sblock.blocks with
  | .error f => .error f
  | .ok m => .ok { s with block_map := m }

/-- `PinoqFs::init_root`: if the aspect has no root yet, allocate an inode
block and a directory block, store an `S_IFDIR` inode and an empty `Dir`,
and re-seal the aspect. -/
def init_root (s : PinoqSt) : RRes PinoqSt :=
  if s.aspect.has_root_block then .ok s
  else
    match allocate_block s with
    | .error f => .error f
    | .ok (root_block_index, s1) =>
      match allocate_block s1 with
      | .error f => .error f
      | .ok (data_block_index, s2) =>
        let s3 := { s2 with aspect := { s2.aspect with root_block := root_block_index } }
        let root_node : INode :=
          { INode.new S_IFDIR s3.sblock.uid s3.sblock.gid with
              block_size := BLOCK_SIZE, data_block := data_block_index }
        let s4 := store_to_block s3 (.inode root_node) root_block_index
        let s5 := store_to_block s4 (.dir ⟨[]⟩) data_block_index
        .ok (store_aspect s5 s5.aspect s5.config.current_aspect)

/-- The on-disk volume as `PinoqFs::new` reads it: the plaintext superblock
(bincode decodes any five `u32`s, whatever the magic value) and the aspect
slots. -/
structure Volume where
  sblock : SuperBlock
  slots : List EncryptedAspect
deriving DecidableEq

/-- `decrypt_aspect` from mod.rs: read the `EncryptedAspect` at the slot
offset and open it with the password. -/
def decrypt_aspect (slots : List EncryptedAspect) (n : Nat) (password : List Nat) :
    RRes Aspect :=
  match slots.get? n with
  | none => .error (.raised .Serialization)
  | some ea => Aspect.from_encrypted_aspect ea password

/-- Second half of `PinoqFs::new`: `construct_block_map` followed by
`init_root` on the freshly assembled mount state. -/
def newStep2 (s : PinoqSt) : RRes PinoqSt :=
  match construct_block_map s with
  | .error f => .error f
  | .ok s' => init_root s'

/-- `PinoqFs::new` from fs.rs: deserialize the superblock, decrypt the
configured aspect, build the global block map, bootstrap the root.  No step
examines `sblock.magic`. -/
def PinoqFs.new (v : Volume) (config : Config) : RRes PinoqSt :=
  match decrypt_aspect v.slots config.current_aspect config.password with
  | .error f => .error f
  | .ok aspect =>
    newStep2
      { config := config, sblock := v.sblock, aspect := aspect, block_map := []
      , fd_manager := [], store := [], slots := v.slots, keyctr := 0 }

/-- `RAW_BLK_SIZE` from `PinoqFs::write`: `BLOCK_SIZE - 32`. -/
def RAW_BLK_SIZE : Nat := BLOCK_SIZE - 32

/-- The chunk loop of `PinoqFs::write`: store each chunk at the block index
allocated for it (`nb`), linking to the next freshly allocated index, with
`0xFFFFFFFF` on the last chunk, whose index also becomes the handle's
cursor. -/
def write_loop (fh : Nat) : PinoqSt → Nat → List (List Nat) → RRes PinoqSt
  | s, _, [] => .ok s
  | s, nb, chunk :: rest =>
    match rest with
    | [] =>
      let s1 := { s with fd_manager := (fh, ⟨some nb⟩) :: s.fd_manager }
      .ok (store_to_block s1 (.blk { next_block := 0xFFFFFFFF, data := chunk }) nb)
    | _ :: _ =>
      match allocate_block s with
      | .error f => .error f
      | .ok (nxt, s1) =>
        let s2 := store_to_block s1 (.blk { next_block := nxt, data := chunk }) nb
        write_loop fh s2 nxt rest

/-- `PinoqFs::write` from fs.rs: allocate the first block, link it from the
previous terminal (the inode when the cursor is unset, the previous terminal
`Block` otherwise), run the chunk loop, re-seal the aspect, return
`data.len()`. -/
def write (s0 : PinoqSt) (ino fh : Nat) (data : List Nat) : RRes (Nat × PinoqSt) :=
  match allocate_block s0 with
  | .error f => .error f
  | .ok (nb, s1) =>
    let fdv_s2 : FileDescriptor × PinoqSt :=
      match assocGet s1.fd_manager fh with
      | some d => (d, s1)
      | none => (⟨none⟩, { s1 with fd_manager := (fh, (⟨none⟩ : FileDescriptor)) :: s1.fd_manager })
    let fdv := fdv_s2.1
    let s2 := fdv_s2.2
    let step2 : RRes PinoqSt :=
      match fdv.next_block with
      | some n =>
        match getBlock s2 n with
        | .error f => .error f
        | .ok b => .ok (store_to_block s2 (.blk { b with next_block := nb }) n)
      | none =>
        match getINode s2 ino with
        | .error f => .error f
        | .ok nd => .ok (store_to_block s2 (.inode { nd with data_block := nb }) ino)
    match step2 with
    | .error f => .error f
    | .ok s3 =>
      match write_loop fh s3 nb (chunksOf RAW_BLK_SIZE data) with
      | .error f => .error f
      | .ok s4 => .ok (data.length, store_aspect s4 s4.aspect s4.config.current_aspect)

/-- `PinoqFs::read` from fs.rs: `fd_manager.get(fh).unwrap()` (a panic when
the handle is unknown), cursor defaulted from the inode, `0xFFFFFFFF` is EOF,
otherwise one block's payload is returned and the cursor advanced to its
`next_block`.  The `offset` argument is ignored. -/
def PinoqFs.read (s : PinoqSt) (ino fh : Nat) (_offset : Nat) : RRes (List Nat × PinoqSt) :=
  match assocGet s.fd_manager fh with
  | none => .error .panicked
  | some fd =>
    let nbRes : RRes Nat :=
      match fd.next_block with
      | some n => .ok n
      | none =>
        match getINode s ino with
        | .error f => .error f
        | .ok nd => .ok nd.data_block
    match nbRes with
    | .error f => .error f
    | .ok nb =>
      if nb = 0xFFFFFFFF then .ok ([], s)
      else
        match getBlock s nb with
        | .error f => .error f
        | .ok blk =>
          .ok (blk.data, { s with fd_manager := (fh, ⟨some blk.next_block⟩) :: s.fd_manager })

theorem chunksOfF_eight_length (fuel : Nat) :
    ∀ l : List Bool, l.length ≤ fuel →
      (chunksOfF 8 fuel l).length = (l.length + 7) / 8 := by
  induction fuel with
  | zero =>
    intro l hl
    have hnil : l = [] := List.eq_nil_of_length_eq_zero (Nat.le_zero.mp hl)
    subst hnil
    simp [chunksOfF]
  | succ f ih =>
    intro l hl
    cases l with
    | nil => simp [chunksOfF]
    | cons x xs =>
      have hdrop : ((x :: xs).drop 8).length ≤ f := by
        simp only [List.length_drop, List.length_cons]
        simp only [List.length_cons] at hl
        omega
      have := ih ((x :: xs).drop 8) hdrop
      simp only [chunksOfF, List.length_cons, this, List.length_drop]
      omega

theorem bitsToBytesLsb0_length (bs : List Bool) :
    (bitsToBytesLsb0 bs).length = (bs.length + 7) / 8 := by
  simp only [bitsToBytesLsb0, chunksOf, List.length_map]
  exact chunksOfF_eight_length bs.length bs le_rfl

theorem aspect_serialize_length (a : Aspect) (h : a.key.bytes.length = 32) :
    a.serialize.length = aspectPlainLen a.block_map.length := by
  simp [Aspect.serialize, aspectPlainLen, natToBeBytes4, bitsToBytesLsb0_length, h]
  omega

/-- Claim C1 (code divergence): the data-block stride of `get_block_offset`
is `mem::size_of::<Block>()` = 32 bytes, not `BLOCK_SIZE` = 1024; the mkfs
volume length does equal `block_offset(A, B, B)`.  Evaluated at the failing
input `A = 2, B = 256, n = 0`. -/
theorem block_offset_stride_spec :
    (∀ A B n : Nat,
      get_block_offset A B (n + 1) - get_block_offset A B n = sizeOfBlockStruct) ∧
    sizeOfBlockStruct = 32 ∧
    (∀ A B : Nat, mkfs_length A B = get_block_offset A B B) ∧
    BLOCK_SIZE = 1024 ∧
    get_block_offset 2 256 1 - get_block_offset 2 256 0 ≠ BLOCK_SIZE := by
  refine ⟨?_, rfl, fun A B => rfl, rfl, by decide⟩
  intro A B n
  simp only [get_block_offset, sizeOfBlockStruct, sizeOfSuperBlockStruct]
  generalize EncryptedAspect.size_of B * A = k
  omega

/-- Claim C4 (code divergence): the aspect-slot stride is the hardcoded
`B/8 + 88` of `EncryptedAspect::size_of`, while the exactly derived encoded
size is `40 + pkcs(36 + ceil(B/8))`; the two differ at `B = 8`
(89 versus 88). -/
theorem aspect_size_spec :
    (∀ B n : Nat,
      get_aspect_offset B (n + 1) - get_aspect_offset B n = EncryptedAspect.size_of B) ∧
    (∀ (a : Aspect) (pw : List Nat) (wrap : Key),
      a.key.bytes.length = 32 →
      (a.to_encrypted_aspect pw wrap).encoded_len =
        encryptedAspectExactSize a.block_map.length) ∧
    encryptedAspectExactSize 8 = 88 ∧
    EncryptedAspect.size_of 8 = 89 ∧
    get_aspect_offset 8 1 - get_aspect_offset 8 0 ≠ encryptedAspectExactSize 8 := by
  refine ⟨?_, ?_, by decide, by decide, by decide⟩
  · intro B n
    simp only [get_aspect_offset, sizeOfSuperBlockStruct, Nat.mul_succ]
    generalize EncryptedAspect.size_of B * n = k
    generalize EncryptedAspect.size_of B = e
    omega
  · intro a pw wrap h
    simp [EncryptedAspect.encoded_len, Aspect.to_encrypted_aspect, encrypt, ciphertextLen,
      encryptedAspectExactSize, aspect_serialize_length a h]

/-- Concrete aspect used to witness `aspect_size_spec`. -/
def AspectW : Aspect := Aspect.new 8 ⟨List.replicate 32 0⟩

theorem aspect_size_spec_witness :
    AspectW.key.bytes.length = 32 ∧
    (AspectW.to_encrypted_aspect [] ⟨[]⟩).encoded_len =
      encryptedAspectExactSize AspectW.block_map.length :=
  ⟨by decide, aspect_size_spec.2.1 AspectW [] ⟨[]⟩ (by decide)⟩

/-- Claim C7 counterexample: a binary-decoding (`Serialization`) failure is
mapped to `-1` by `to_code`, not to `EIO`. -/
theorem to_code_serialization_cex :
    PinoqError.to_code .Serialization = -1 ∧
    PinoqError.to_code .Serialization ≠ EIO_errno := by
  decide

/-- Claim C7 as amended: `to_code` maps a lookup miss to `ENOENT`, a
non-directory parent to `ENOTDIR`, allocation failure to `ENOSPC`, an I/O
failure to `EIO`, and both decoding failures and invalid configuration to
`-1` (the wildcard arm). -/
theorem to_code_spec :
    PinoqError.to_code .NoEntry = ENOENT ∧
    PinoqError.to_code .NoDirectory = ENOTDIR ∧
    PinoqError.to_code .NoEnoughSpace = ENOSPC ∧
    PinoqError.to_code .IOErr = EIO_errno ∧
    PinoqError.to_code .Serialization = -1 ∧
    PinoqError.to_code .InvalidConfig = -1 := by
  decide

/-- Claim C3 (code divergence): a padding failure inside `decrypt` is a panic
(`unwrap`), not an error value; and whenever decryption returns at least 36
bytes, `from_encrypted_aspect` accepts unconditionally — no check of the
block-map length against `B` and no range check of `root_block` exists.
Evaluated at a concrete non-ciphertext slot, which panics. -/
theorem from_encrypted_aspect_spec :
    (∀ (ea : EncryptedAspect) (pw : List Nat),
      opensslDecrypt ea.encrypted_data ea.key (IV.from_bytes pw) = none →
      Aspect.from_encrypted_aspect ea pw = .error .panicked) ∧
    (∀ (ea : EncryptedAspect) (pw : List Nat) (d : List Nat),
      opensslDecrypt ea.encrypted_data ea.key (IV.from_bytes pw) = some d →
      36 ≤ d.length →
      Aspect.from_encrypted_aspect ea pw =
        .ok { key := ⟨d.take 32⟩
            , root_block := beBytesToNat ((d.drop 32).take 4)
            , block_map := bytesToBitsLsb0 (d.drop 36) }) ∧
    Aspect.from_encrypted_aspect ⟨⟨List.replicate 32 1⟩, .raw [1, 2, 3]⟩ [7] =
      .error .panicked := by
  refine ⟨?_, ?_, by decide⟩
  · intro ea pw h
    simp [Aspect.from_encrypted_aspect, decrypt, h]
  · intro ea pw d h hlen
    simp only [Aspect.from_encrypted_aspect, decrypt, h]
    rw [if_neg (by omega)]

/-- Concrete well-padded slot used to witness `from_encrypted_aspect_spec`. -/
def EAw : EncryptedAspect :=
  ⟨⟨List.replicate 32 1⟩,
   .enc (List.replicate 40 5) ⟨List.replicate 32 1⟩ (IV.from_bytes [9])⟩

theorem from_encrypted_aspect_spec_witness :
    opensslDecrypt EAw.encrypted_data EAw.key (IV.from_bytes [9]) =
      some (List.replicate 40 5) ∧
    36 ≤ (List.replicate 40 5 : List Nat).length ∧
    Aspect.from_encrypted_aspect EAw [9] =
      .ok { key := ⟨(List.replicate 40 5 : List Nat).take 32⟩
          , root_block := beBytesToNat (((List.replicate 40 5 : List Nat).drop 32).take 4)
          , block_map := bytesToBitsLsb0 ((List.replicate 40 5 : List Nat).drop 36) } :=
  ⟨by decide, by decide,
   from_encrypted_aspect_spec.2.1 EAw [9] (List.replicate 40 5) (by decide) (by decide)⟩

/-- Replace only the superblock's magic field of a mount state. -/
def setMagicSt (m : Nat) (s : PinoqSt) : PinoqSt :=
  { s with sblock := { s.sblock with magic := m } }

theorem allocate_magic (m : Nat) (s : PinoqSt) :
    allocate_block (setMagicSt m s) =
      (allocate_block s).map (fun p => (p.1, setMagicSt m p.2)) := by
  unfold allocate_block find_free_block
  dsimp only [setMagicSt]
  cases findFreeIdx s.block_map <;> rfl

theorem construct_magic (m : Nat) (s : PinoqSt) :
    construct_block_map (setMagicSt m s) = (construct_block_map s).map (setMagicSt m) := by
  unfold construct_block_map
  dsimp only [setMagicSt]
  cases construct_block_map_pure s.slots s.config.password s.sblock.aspects s.sblock.blocks
    <;> rfl

theorem setMagicSt_aspect (m : Nat) (s : PinoqSt) : (setMagicSt m s).aspect = s.aspect :=
  rfl

theorem init_root_magic (m : Nat) (s : PinoqSt) :
    init_root (setMagicSt m s) = (init_root s).map (setMagicSt m) := by
  unfold init_root
  simp only [setMagicSt_aspect]
  cases h : s.aspect.has_root_block with
  | true =>
    simp only [h, if_true]
    rfl
  | false =>
    simp only [h, Bool.false_eq_true, if_false]
    rw [allocate_magic]
    cases allocate_block s with
    | error f => rfl
    | ok p =>
      obtain ⟨i, s1⟩ := p
      dsimp only [Except.map]
      rw [allocate_magic]
      cases allocate_block s1 with
      | error f => rfl
      | ok q => rfl

theorem newStep2_magic (m : Nat) (s : PinoqSt) :
    newStep2 (setMagicSt m s) = (newStep2 s).map (setMagicSt m) := by
  unfold newStep2
  rw [construct_magic]
  cases construct_block_map s with
  | error f => rfl
  | ok s' =>
    dsimp only [Except.map]
    exact init_root_magic m s'

/-- Claim C2 as amended: `PinoqFs::new` performs no validation of the
superblock magic — replacing the magic by any value changes the mount result
only by carrying that value along, so mounting succeeds or fails entirely
independently of it. -/
theorem new_ignores_magic (v : Volume) (cfg : Config) (m : Nat) :
    PinoqFs.new ⟨{ v.sblock with magic := m }, v.slots⟩ cfg =
      (PinoqFs.new v cfg).map (setMagicSt m) := by
  unfold PinoqFs.new
  dsimp only
  cases decrypt_aspect v.slots cfg.current_aspect cfg.password with
  | error f => rfl
  | ok aspect =>
    dsimp only [Except.map]
    exact newStep2_magic m
      { config := cfg, sblock := v.sblock, aspect := aspect, block_map := []
      , fd_manager := [], store := [], slots := v.slots, keyctr := 0 }

/-- Password used by the concrete mount example. -/
def PwW : List Nat := [1, 2, 3]

/-- Concrete volume whose superblock magic is 0 (one aspect, 8 blocks). -/
def VolW : Volume :=
  ⟨⟨0, 1, 8, 1000, 1000⟩,
   [(Aspect.new 8 ⟨List.replicate 32 7⟩).to_encrypted_aspect PwW ⟨List.replicate 32 9⟩]⟩

/-- Mount configuration for `VolW`. -/
def CfgW : Config := ⟨0, PwW⟩

/-- Claim C2 counterexample: `VolW`'s magic differs from `0x504E4F51`, yet
`PinoqFs::new` mounts it successfully — a magic mismatch is not a mount
failure. -/
theorem new_no_magic_check_cex :
    VolW.sblock.magic ≠ MAGIC ∧ resultIsOk (PinoqFs.new VolW CfgW) = true := by
  constructor
  · decide
  · decide

theorem findFreeIdx_none_iff (l : List Bool) :
    findFreeIdx l = none ↔ ∀ b ∈ l, b = true := by
  induction l with
  | nil => simp [findFreeIdx]
  | cons x xs ih =>
    cases x with
    | true => simp [findFreeIdx, Option.map_eq_none', ih]
    | false => simp [findFreeIdx]

theorem findFreeIdx_some (l : List Bool) :
    ∀ i, findFreeIdx l = some i →
      l.getD i false = false ∧ i < l.length ∧ ∀ j, j < i → l.getD j false = true := by
  induction l with
  | nil => intro i h; simp [findFreeIdx] at h
  | cons x xs ih =>
    intro i h
    cases x with
    | false =>
      simp only [findFreeIdx] at h
      rw [if_neg (by simp)] at h
      injection h with h
      subst h
      exact ⟨rfl, by simp, fun j hj => absurd hj (by omega)⟩
    | true =>
      simp only [findFreeIdx, if_pos rfl] at h
      cases hk : findFreeIdx xs with
      | none => rw [hk] at h; simp at h
      | some k =>
        rw [hk] at h
        simp only [Option.map_some'] at h
        injection h with h
        subst h
        obtain ⟨h1, h2, h3⟩ := ih k hk
        refine ⟨h1, by simp; omega, ?_⟩
        intro j hj
        cases j with
        | zero => rfl
        | succ j' => exact h3 j' (by omega)

theorem getD_set_self (l : List Bool) :
    ∀ i, i < l.length → (l.set i true).getD i false = true := by
  induction l with
  | nil => intro i h; simp at h
  | cons x xs ih =>
    intro i h
    cases i with
    | zero => rfl
    | succ n =>
      simp only [List.set_cons_succ, List.getD_cons_succ]
      exact ih n (by simpa using h)

theorem getD_set_ne (l : List Bool) :
    ∀ i j, i ≠ j → (l.set i true).getD j false = l.getD j false := by
  induction l with
  | nil => intro i j h; simp [List.set]
  | cons x xs ih =>
    intro i j h
    cases i with
    | zero =>
      cases j with
      | zero => exact absurd rfl h
      | succ j' => simp
    | succ i' =>
      cases j with
      | zero => simp
      | succ j' =>
        simp only [List.set_cons_succ, List.getD_cons_succ]
        exact ih i' j' (by omega)

theorem getD_true_lt (l : List Bool) :
    ∀ j, l.getD j false = true → j < l.length := by
  induction l with
  | nil => intro j h; simp [List.getD] at h
  | cons x xs ih =>
    intro j h
    cases j with
    | zero => simp
    | succ j' =>
      simp only [List.getD_cons_succ] at h
      have := ih j' h
      simp
      omega

theorem getD_set_true_mono (l : List Bool) (i j : Nat)
    (h : l.getD j false = true) : (l.set i true).getD j false = true := by
  by_cases hij : i = j
  · subst hij
    exact getD_set_self l i (getD_true_lt l i h)
  · rw [getD_set_ne l i j hij]
    exact h

/-- Claim C8: `allocate_block` fails with the no-space error exactly when the
global map has no zero bit; on success it returns the lowest zero index of the
global map, sets that bit in both the global and the current aspect's map
(pointwise, when the index is in range) and leaves every other bit of both
maps — and the rest of the state — unchanged. -/
theorem allocate_block_spec (s : PinoqSt) :
    (allocate_block s = .error (.raised .NoEnoughSpace) ↔ ∀ b ∈ s.block_map, b = true) ∧
    (∀ (i : Nat) (s' : PinoqSt), allocate_block s = .ok (i, s') →
      s.block_map.getD i false = false ∧
      (∀ j, j < i → s.block_map.getD j false = true) ∧
      s'.block_map = s.block_map.set i true ∧
      s'.aspect.block_map = s.aspect.block_map.set i true ∧
      s'.block_map.getD i false = true ∧
      (i < s.aspect.block_map.length → s'.aspect.block_map.getD i false = true) ∧
      (∀ j, j ≠ i → s'.block_map.getD j false = s.block_map.getD j false) ∧
      (∀ j, j ≠ i → s'.aspect.block_map.getD j false = s.aspect.block_map.getD j false) ∧
      s'.store = s.store ∧ s'.fd_manager = s.fd_manager ∧ s'.slots = s.slots ∧
      s'.aspect.key = s.aspect.key ∧ s'.aspect.root_block = s.aspect.root_block) := by
  constructor
  · unfold allocate_block find_free_block
    cases h : findFreeIdx s.block_map with
    | none =>
      simp only [h]
      exact ⟨fun _ => (findFreeIdx_none_iff s.block_map).mp h, fun _ => by trivial⟩
    | some k =>
      simp only [h]
      constructor
      · intro hcontra; cases hcontra
      · intro hall
        exact absurd h (by rw [(findFreeIdx_none_iff s.block_map).mpr hall]; simp)
  · intro i s' h
    unfold allocate_block find_free_block at h
    cases hf : findFreeIdx s.block_map with
    | none => rw [hf] at h; cases h
    | some k =>
      rw [hf] at h
      injection h with h
      injection h with hk hs
      cases hk
      cases hs
      obtain ⟨h1, h2, h3⟩ := findFreeIdx_some s.block_map i hf
      refine ⟨h1, h3, rfl, rfl, getD_set_self s.block_map i h2, ?_, ?_, ?_,
        rfl, rfl, rfl, rfl, rfl⟩
      · intro hlen
        exact getD_set_self s.aspect.block_map i hlen
      · intro j hj
        exact getD_set_ne s.block_map i j (fun he => hj he.symm)
      · intro j hj
        exact getD_set_ne s.aspect.block_map i j (fun he => hj he.symm)

/-- Concrete mount state used by the witnesses: two blocks, block 1 holding a
terminal data block, handle 5 open with its cursor at block 1. -/
def RdSt : PinoqSt :=
  { config := ⟨0, PwW⟩, sblock := ⟨MAGIC, 1, 2, 0, 0⟩
  , aspect := Aspect.new 2 ⟨List.replicate 32 7⟩
  , block_map := [false, true], fd_manager := [(5, ⟨some 1⟩)]
  , store := [(1, .blk ⟨0xFFFFFFFF, [42]⟩)], slots := [], keyctr := 0 }

/-- The state `allocate_block` produces from `RdSt`. -/
def RdStA : PinoqSt :=
  { RdSt with
    block_map := [true, true],
    aspect := { RdSt.aspect with block_map := [true, false] } }

theorem allocate_block_spec_witness :
    RdSt.block_map.getD 0 false = false ∧
    (∀ j, j < 0 → RdSt.block_map.getD j false = true) ∧
    RdStA.block_map = RdSt.block_map.set 0 true ∧
    RdStA.aspect.block_map = RdSt.aspect.block_map.set 0 true ∧
    RdStA.block_map.getD 0 false = true ∧
    (0 < RdSt.aspect.block_map.length → RdStA.aspect.block_map.getD 0 false = true) ∧
    (∀ j, j ≠ 0 → RdStA.block_map.getD j false = RdSt.block_map.getD j false) ∧
    (∀ j, j ≠ 0 → RdStA.aspect.block_map.getD j false = RdSt.aspect.block_map.getD j false) ∧
    RdStA.store = RdSt.store ∧ RdStA.fd_manager = RdSt.fd_manager ∧
    RdStA.slots = RdSt.slots ∧ RdStA.aspect.key = RdSt.aspect.key ∧
    RdStA.aspect.root_block = RdSt.aspect.root_block :=
  (allocate_block_spec RdSt).2 0 RdStA (by decide)

/-- A mount state with handle 7 registered and its cursor pointing at block 0,
which was allocated (its global bit is set) but never written — exactly the
state an empty write leaves behind. -/
def PanicSt : PinoqSt :=
  { config := ⟨0, PwW⟩, sblock := ⟨MAGIC, 1, 2, 0, 0⟩
  , aspect := Aspect.new 2 ⟨List.replicate 32 7⟩
  , block_map := [true, false], fd_manager := [(7, ⟨some 0⟩)]
  , store := [], slots := [], keyctr := 0 }

/-- Claim C9: calling `read` with a file handle never recorded in the
open-file table panics on the `unwrap` of `None` in fs.rs, instead of
returning an error, so the operation is total only under the precondition
that the handle is registered: any non-panicking call had a registered
handle.  Registration alone is not sufficient for panic-freedom — a
registered handle whose cursor points at a never-written block (such as the
one an empty write links in) panics too, inside `decrypt`'s `unwrap` — so
the precondition is necessary, not sufficient. -/
theorem read_unregistered_panics (s : PinoqSt) (ino fh off : Nat) :
    (assocGet s.fd_manager fh = none → PinoqFs.read s ino fh off = .error .panicked) ∧
    (PinoqFs.read s ino fh off ≠ .error .panicked → assocGet s.fd_manager fh ≠ none) ∧
    (assocGet PanicSt.fd_manager 7 = some ⟨some 0⟩ ∧
      PinoqFs.read PanicSt 0 7 0 = .error .panicked) := by
  refine ⟨?_, ?_, by decide, by decide⟩
  · intro h
    unfold PinoqFs.read
    rw [h]
  · intro hnp hnone
    exact hnp (by unfold PinoqFs.read; rw [hnone])

theorem read_unregistered_panics_witness :
    assocGet RdSt.fd_manager 6 = none ∧ PinoqFs.read RdSt 0 6 0 = .error .panicked :=
  ⟨by decide, (read_unregistered_panics RdSt 0 6 0).1 (by decide)⟩

/-- Claim C6: on a registered handle, `read` ignores its offset argument and
returns exactly one block's payload per call: a cursor of `0xFFFFFFFF` (or an
unset cursor with `inode.data_block = 0xFFFFFFFF`) yields the empty buffer
with the state untouched; otherwise the block at the cursor (or at
`inode.data_block` when the cursor is unset) is loaded, its payload returned,
and the cursor set to that block's `next_block`. -/
theorem read_spec (s : PinoqSt) (ino fh off : Nat) (fd : FileDescriptor)
    (hfd : assocGet s.fd_manager fh = some fd) :
    (∀ off2 : Nat, PinoqFs.read s ino fh off = PinoqFs.read s ino fh off2) ∧
    (fd.next_block = some 0xFFFFFFFF → PinoqFs.read s ino fh off = .ok ([], s)) ∧
    (∀ nd : INode, fd.next_block = none → getINode s ino = .ok nd →
      nd.data_block = 0xFFFFFFFF → PinoqFs.read s ino fh off = .ok ([], s)) ∧
    (∀ (b : Nat) (blk : Block), fd.next_block = some b → b ≠ 0xFFFFFFFF →
      getBlock s b = .ok blk →
      PinoqFs.read s ino fh off =
        .ok (blk.data, { s with fd_manager := (fh, ⟨some blk.next_block⟩) :: s.fd_manager })) ∧
    (∀ (nd : INode) (blk : Block), fd.next_block = none → getINode s ino = .ok nd →
      nd.data_block ≠ 0xFFFFFFFF → getBlock s nd.data_block = .ok blk →
      PinoqFs.read s ino fh off =
        .ok (blk.data, { s with fd_manager := (fh, ⟨some blk.next_block⟩) :: s.fd_manager })) := by
  refine ⟨fun off2 => rfl, ?_, ?_, ?_, ?_⟩
  · intro hnb
    unfold PinoqFs.read
    rw [hfd]
    dsimp only
    rw [hnb]
    dsimp only
    rw [if_pos rfl]
  · intro nd hnb hgi hdb
    unfold PinoqFs.read
    rw [hfd]
    dsimp only
    rw [hnb]
    dsimp only
    rw [hgi]
    dsimp only
    rw [hdb]
    rw [if_pos rfl]
  · intro b blk hnb hne hgb
    unfold PinoqFs.read
    rw [hfd]
    dsimp only
    rw [hnb]
    dsimp only
    rw [if_neg hne, hgb]
  · intro nd blk hnb hgi hne hgb
    unfold PinoqFs.read
    rw [hfd]
    dsimp only
    rw [hnb]
    dsimp only
    rw [hgi]
    dsimp only
    rw [if_neg hne, hgb]

theorem read_spec_witness :
    assocGet RdSt.fd_manager 5 = some ⟨some 1⟩ ∧
    PinoqFs.read RdSt 0 5 0 =
      .ok ([42], { RdSt with fd_manager := (5, ⟨some 0xFFFFFFFF⟩) :: RdSt.fd_manager }) :=
  ⟨by decide,
   (read_spec RdSt 0 5 0 ⟨some 1⟩ (by decide)).2.2.2.1 1 ⟨0xFFFFFFFF, [42]⟩ rfl
     (by decide) (by decide)⟩

/-- Well-formedness maintained by the mount: every block slot holding a record
is marked in-use in the global map. -/
def StInv (s : PinoqSt) : Prop :=
  ∀ p ∈ s.store, s.block_map.getD p.1 false = true

instance (s : PinoqSt) : Decidable (StInv s) := by
  unfold StInv
  infer_instance

/-- The cursor value of a handle (`None` both for an unregistered handle and
for a registered one whose `next_block` is unset). -/
def cursorOf (s : PinoqSt) (fh : Nat) : Option Nat :=
  match assocGet s.fd_manager fh with
  | none => none
  | some fd => fd.next_block

theorem assocGet_mem {α : Type} :
    ∀ (st : List (Nat × α)) (n : Nat) (r : α), assocGet st n = some r → (n, r) ∈ st := by
  intro st
  induction st with
  | nil => intro n r h; cases h
  | cons p rest ih =>
    intro n r h
    obtain ⟨k, v⟩ := p
    by_cases hk : k = n
    · subst hk
      rw [show assocGet ((k, v) :: rest) k = some v from by simp [assocGet]] at h
      injection h with h
      subst h
      exact List.mem_cons_self _ _
    · rw [show assocGet ((k, v) :: rest) n = assocGet rest n from by simp [assocGet, hk]] at h
      exact List.mem_cons_of_mem _ (ih n r h)

theorem assocGet_cons_self {α : Type} (st : List (Nat × α)) (n : Nat) (r : α) :
    assocGet ((n, r) :: st) n = some r := by
  simp [assocGet]

theorem assocGet_cons_ne {α : Type} (st : List (Nat × α)) (n m : Nat) (r : α)
    (h : n ≠ m) : assocGet ((n, r) :: st) m = assocGet st m := by
  simp [assocGet, h]

theorem inv_getD_true {s : PinoqSt} (h : StInv s) {n : Nat} {r : StoredRec}
    (hget : assocGet s.store n = some r) : s.block_map.getD n false = true :=
  h (n, r) (assocGet_mem s.store n r hget)

theorem inv_fresh_none {s : PinoqSt} (h : StInv s) {n : Nat}
    (hbit : s.block_map.getD n false = false) : assocGet s.store n = none := by
  cases hg : assocGet s.store n with
  | none => rfl
  | some r =>
    have := inv_getD_true h hg
    rw [hbit] at this
    cases this

theorem getINode_ok (s : PinoqSt) (n : Nat) (nd : INode) :
    getINode s n = .ok nd → assocGet s.store n = some (.inode nd) := by
  unfold getINode
  cases h : assocGet s.store n with
  | none => intro he; cases he
  | some r =>
    cases r with
    | inode v => intro he; injection he with he; subst he; rfl
    | dir v => intro he; cases he
    | blk v => intro he; cases he

theorem getBlock_ok (s : PinoqSt) (n : Nat) (b : Block) :
    getBlock s n = .ok b → assocGet s.store n = some (.blk b) := by
  unfold getBlock
  cases h : assocGet s.store n with
  | none => intro he; cases he
  | some r =>
    cases r with
    | blk v => intro he; injection he with he; subst he; rfl
    | dir v => intro he; cases he
    | inode v => intro he; cases he

theorem allocate_ok_dest {s : PinoqSt} {i : Nat} {s' : PinoqSt}
    (h : allocate_block s = .ok (i, s')) :
    findFreeIdx s.block_map = some i ∧
    s' = { s with
           block_map := s.block_map.set i true,
           aspect := { s.aspect with block_map := s.aspect.block_map.set i true } } := by
  unfold allocate_block find_free_block at h
  cases hf : findFreeIdx s.block_map with
  | none => rw [hf] at h; cases h
  | some k =>
    rw [hf] at h
    injection h with h
    injection h with hk hs
    cases hk
    exact ⟨rfl, hs.symm⟩

theorem inv_allocate {s : PinoqSt} {i : Nat} {s' : PinoqSt} (h : StInv s)
    (halloc : allocate_block s = .ok (i, s')) : StInv s' := by
  obtain ⟨-, hs⟩ := allocate_ok_dest halloc
  subst hs
  intro p hp
  exact getD_set_true_mono s.block_map i p.1 (h p hp)

theorem inv_store {s : PinoqSt} {r : StoredRec} {n : Nat} (h : StInv s)
    (hbit : s.block_map.getD n false = true) : StInv (store_to_block s r n) := by
  intro p hp
  rcases List.mem_cons.mp hp with heq | hmem
  · subst heq
    exact hbit
  · exact h p hmem

theorem chunksOfF_flatten {α : Type} (k : Nat) (hk : 0 < k) :
    ∀ (fuel : Nat) (l : List α), l.length ≤ fuel → (chunksOfF k fuel l).flatten = l := by
  intro fuel
  induction fuel with
  | zero =>
    intro l hl
    have : l = [] := List.eq_nil_of_length_eq_zero (Nat.le_zero.mp hl)
    subst this
    rfl
  | succ f ih =>
    intro l hl
    cases l with
    | nil => rfl
    | cons x xs =>
      have hdrop : ((x :: xs).drop k).length ≤ f := by
        simp only [List.length_drop, List.length_cons]
        simp only [List.length_cons] at hl
        omega
      simp only [chunksOfF, List.flatten_cons, ih _ hdrop, List.take_append_drop]

theorem chunksOfF_mem_length {α : Type} (k : Nat) :
    ∀ (fuel : Nat) (l c : List α), c ∈ chunksOfF k fuel l → c.length ≤ k := by
  intro fuel
  induction fuel with
  | zero =>
    intro l c h
    cases l <;> simp [chunksOfF] at h
  | succ f ih =>
    intro l c h
    cases l with
    | nil => simp [chunksOfF] at h
    | cons x xs =>
      simp only [chunksOfF] at h
      rcases List.mem_cons.mp h with heq | hmem
      · subst heq
        simp
      · exact ih _ c hmem

theorem chunksOf_ne_nil {α : Type} (k : Nat) (l : List α) (h : l ≠ []) :
    chunksOf k l ≠ [] := by
  unfold chunksOf
  cases l with
  | nil => exact absurd rfl h
  | cons x xs => simp [chunksOfF]

/-- The chain laid out by one `write` call: block `bᵢ` holds chunk `cᵢ` and
links to `bᵢ₊₁`, the last block linking to `0xFFFFFFFF`. -/
def chainAt : BlockStore → List Nat → List (List Nat) → Prop
  | _, [], [] => True
  | st, b :: bs, c :: cs =>
    assocGet st b = some (.blk { next_block := bs.headD 0xFFFFFFFF, data := c }) ∧
      chainAt st bs cs
  | _, [], _ :: _ => False
  | _, _ :: _, [] => False

/-- Claim C10: a write call with empty payload still allocates one block,
links the previous terminal to it (the inode's `data_block` when the cursor is
unset, the previous terminal `Block`'s `next_block` otherwise), stores no
record at the allocated block, leaves the handle's cursor value unchanged,
re-seals the aspect, and returns 0 — the chain now ends in a link to a block
that was never written. -/
theorem write_empty_spec (s : PinoqSt) (ino fh : Nat) (n : Nat) (s' : PinoqSt)
    (hinv : StInv s)
    (hok : write s ino fh [] = .ok (n, s')) :
    n = 0 ∧
    ∃ (first : Nat) (s1 : PinoqSt),
      allocate_block s = .ok (first, s1) ∧
      s.block_map.getD first false = false ∧
      assocGet s'.store first = none ∧
      (match cursorOf s fh with
       | some t => ∃ bOld : Block, getBlock s t = .ok bOld ∧
           assocGet s'.store t = some (.blk { next_block := first, data := bOld.data })
       | none => ∃ nd : INode, getINode s ino = .ok nd ∧
           assocGet s'.store ino = some (.inode { nd with data_block := first })) ∧
      cursorOf s' fh = cursorOf s fh ∧
      s'.slots = s.slots.set s.config.current_aspect
        (Aspect.to_encrypted_aspect s'.aspect s.config.password (random_key s.keyctr)) ∧
      s'.aspect.block_map = s.aspect.block_map.set first true := by
  unfold write at hok
  cases halloc : allocate_block s with
  | error f => rw [halloc] at hok; cases hok
  | ok p =>
    obtain ⟨first, s1⟩ := p
    rw [halloc] at hok
    obtain ⟨hf, hs1⟩ := allocate_ok_dest halloc
    have hstore : s1.store = s.store := by rw [hs1]
    have hfdm : s1.fd_manager = s.fd_manager := by rw [hs1]
    have hslots : s1.slots = s.slots := by rw [hs1]
    have hcfg : s1.config = s.config := by rw [hs1]
    have hkc : s1.keyctr = s.keyctr := by rw [hs1]
    have haspbm : s1.aspect.block_map = s.aspect.block_map.set first true := by rw [hs1]
    have hfirst_bit : s.block_map.getD first false = false := (findFreeIdx_some _ _ hf).1
    dsimp only at hok
    rw [hfdm] at hok
    cases hfd : assocGet s.fd_manager fh with
    | some d =>
      rw [hfd] at hok
      dsimp only at hok
      cases hnb : d.next_block with
      | some t =>
        rw [hnb] at hok
        dsimp only at hok
        have hgbe : getBlock s1 t = getBlock s t := by unfold getBlock; rw [hstore]
        rw [hgbe] at hok
        cases hgb : getBlock s t with
        | error f => rw [hgb] at hok; cases hok
        | ok bOld =>
          rw [hgb] at hok
          dsimp only [write_loop, chunksOf, chunksOfF, List.length_nil] at hok
          injection hok with hok
          injection hok with hn hs'
          cases hn
          cases hs'
          have ht_bit : s.block_map.getD t false = true :=
            inv_getD_true hinv (getBlock_ok s t bOld hgb)
          have htf : t ≠ first := by
            intro he
            rw [he, hfirst_bit] at ht_bit
            cases ht_bit
          have hcur : cursorOf s fh = some t := by
            simp [cursorOf, hfd, hnb]
          refine ⟨rfl, first, s1, rfl, hfirst_bit, ?_, ?_, ?_, ?_, ?_⟩
          · dsimp only [store_aspect, store_to_block]
            rw [assocGet_cons_ne _ _ _ _ htf, hstore]
            exact inv_fresh_none hinv hfirst_bit
          · rw [hcur]
            refine ⟨bOld, hgb, ?_⟩
            dsimp only [store_aspect, store_to_block]
            exact assocGet_cons_self _ _ _
          · rw [hcur]
            simp [cursorOf, store_aspect, store_to_block, hfdm, hfd, hnb]
          · dsimp only [store_aspect, store_to_block]
            rw [hslots, hcfg, hkc]
          · dsimp only [store_aspect, store_to_block]
            rw [haspbm]
      | none =>
        rw [hnb] at hok
        dsimp only at hok
        have hgie : getINode s1 ino = getINode s ino := by unfold getINode; rw [hstore]
        rw [hgie] at hok
        cases hgi : getINode s ino with
        | error f => rw [hgi] at hok; cases hok
        | ok nd =>
          rw [hgi] at hok
          dsimp only [write_loop, chunksOf, chunksOfF, List.length_nil] at hok
          injection hok with hok
          injection hok with hn hs'
          cases hn
          cases hs'
          have hino_bit : s.block_map.getD ino false = true :=
            inv_getD_true hinv (getINode_ok s ino nd hgi)
          have hinof : ino ≠ first := by
            intro he
            rw [he, hfirst_bit] at hino_bit
            cases hino_bit
          have hcur : cursorOf s fh = none := by
            simp [cursorOf, hfd, hnb]
          refine ⟨rfl, first, s1, rfl, hfirst_bit, ?_, ?_, ?_, ?_, ?_⟩
          · dsimp only [store_aspect, store_to_block]
            rw [assocGet_cons_ne _ _ _ _ hinof, hstore]
            exact inv_fresh_none hinv hfirst_bit
          · rw [hcur]
            refine ⟨nd, rfl, ?_⟩
            dsimp only [store_aspect, store_to_block]
            exact assocGet_cons_self _ _ _
          · rw [hcur]
            simp [cursorOf, store_aspect, store_to_block, hfdm, hfd, hnb]
          · dsimp only [store_aspect, store_to_block]
            rw [hslots, hcfg, hkc]
          · dsimp only [store_aspect, store_to_block]
            rw [haspbm]
    | none =>
      rw [hfd] at hok
      dsimp only at hok
      have hgie : getINode { s1 with fd_manager := (fh, (⟨none⟩ : FileDescriptor)) :: s.fd_manager } ino
          = getINode s ino := by
        unfold getINode
        dsimp only
        rw [hstore]
      rw [hgie] at hok
      cases hgi : getINode s ino with
      | error f => rw [hgi] at hok; cases hok
      | ok nd =>
        rw [hgi] at hok
        dsimp only [write_loop, chunksOf, chunksOfF, List.length_nil] at hok
        injection hok with hok
        injection hok with hn hs'
        cases hn
        cases hs'
        have hino_bit : s.block_map.getD ino false = true :=
          inv_getD_true hinv (getINode_ok s ino nd hgi)
        have hinof : ino ≠ first := by
          intro he
          rw [he, hfirst_bit] at hino_bit
          cases hino_bit
        have hcur : cursorOf s fh = none := by
          simp [cursorOf, hfd]
        refine ⟨rfl, first, s1, rfl, hfirst_bit, ?_, ?_, ?_, ?_, ?_⟩
        · dsimp only [store_aspect, store_to_block]
          rw [assocGet_cons_ne _ _ _ _ hinof, hstore]
          exact inv_fresh_none hinv hfirst_bit
        · rw [hcur]
          refine ⟨nd, rfl, ?_⟩
          dsimp only [store_aspect, store_to_block]
          exact assocGet_cons_self _ _ _
        · rw [hcur]
          simp [cursorOf, store_aspect, store_to_block, assocGet_cons_self]
        · dsimp only [store_aspect, store_to_block]
          rw [hslots, hcfg, hkc]
        · dsimp only [store_aspect, store_to_block]
          rw [haspbm]

/-- Final state of the empty write performed on `RdSt` (handle 5, inode 0). -/
def W10St : PinoqSt :=
  { RdStA with
    store := (1, .blk { next_block := 0, data := [42] }) :: RdSt.store,
    keyctr := 1 }

theorem write_empty_spec_witness :
    StInv RdSt ∧
    (0 = 0 ∧
     ∃ (first : Nat) (s1 : PinoqSt),
       allocate_block RdSt = .ok (first, s1) ∧
       RdSt.block_map.getD first false = false ∧
       assocGet W10St.store first = none ∧
       (match cursorOf RdSt 5 with
        | some t => ∃ bOld : Block, getBlock RdSt t = .ok bOld ∧
            assocGet W10St.store t = some (.blk { next_block := first, data := bOld.data })
        | none => ∃ nd : INode, getINode RdSt 0 = .ok nd ∧
            assocGet W10St.store 0 = some (.inode { nd with data_block := first })) ∧
       cursorOf W10St 5 = cursorOf RdSt 5 ∧
       W10St.slots = RdSt.slots.set RdSt.config.current_aspect
         (Aspect.to_encrypted_aspect W10St.aspect RdSt.config.password (random_key RdSt.keyctr)) ∧
       W10St.aspect.block_map = RdSt.aspect.block_map.set first true) :=
  ⟨by decide, write_empty_spec RdSt 0 5 0 W10St (by decide) (by decide)⟩

theorem write_loop_ok (fh : Nat) :
    ∀ (cs : List (List Nat)) (s : PinoqSt) (nb : Nat) (s' : PinoqSt),
      write_loop fh s nb cs = .ok s' →
      cs ≠ [] →
      StInv s →
      s.block_map.getD nb false = true →
      assocGet s.store nb = none →
      ∃ bs : List Nat,
        bs.head? = some nb ∧
        bs.length = cs.length ∧
        chainAt s'.store bs cs ∧
        (∃ lb, bs.getLast? = some lb ∧
          assocGet s'.fd_manager fh = some ⟨some lb⟩) ∧
        (∀ j, j ∉ bs → assocGet s'.store j = assocGet s.store j) ∧
        (∀ j, s.block_map.getD j false = true → s'.block_map.getD j false = true) ∧
        (∀ b ∈ bs.tail, s.block_map.getD b false = false) := by
  intro cs
  induction cs with
  | nil =>
    intro s nb s' hok hne
    exact absurd rfl hne
  | cons c rest ih =>
    intro s nb s' hok hne hinv hbit hfresh
    cases rest with
    | nil =>
      simp only [write_loop] at hok
      injection hok with hok
      cases hok
      refine ⟨[nb], rfl, rfl, ?_, ?_, ?_, ?_, ?_⟩
      · exact ⟨assocGet_cons_self _ _ _, trivial⟩
      · refine ⟨nb, rfl, ?_⟩
        dsimp only [store_to_block]
        exact assocGet_cons_self _ _ _
      · intro j hj
        have hne' : nb ≠ j := by
          intro he
          exact hj (by rw [he]; exact List.mem_singleton_self j)
        dsimp only [store_to_block]
        exact assocGet_cons_ne _ _ _ _ hne'
      · intro j hj
        exact hj
      · intro b hb
        simp at hb
    | cons c2 rest2 =>
      simp only [write_loop] at hok
      cases halloc : allocate_block s with
      | error f => rw [halloc] at hok; cases hok
      | ok p =>
        obtain ⟨nxt, s1⟩ := p
        rw [halloc] at hok
        dsimp only at hok
        obtain ⟨hf, hs1⟩ := allocate_ok_dest halloc
        have hnxt_bit : s.block_map.getD nxt false = false := (findFreeIdx_some _ _ hf).1
        have hnxt_lt : nxt < s.block_map.length := (findFreeIdx_some _ _ hf).2.1
        have hnxt_ne_nb : nxt ≠ nb := by
          intro he
          rw [he, hbit] at hnxt_bit
          cases hnxt_bit
        have hs1_bm : s1.block_map = s.block_map.set nxt true := by rw [hs1]
        have hs1_store : s1.store = s.store := by rw [hs1]
        have hinv2 : StInv (store_to_block s1 (.blk { next_block := nxt, data := c }) nb) := by
          refine inv_store (inv_allocate hinv halloc) ?_
          rw [hs1_bm]
          exact getD_set_true_mono s.block_map nxt nb hbit
        have hbit2 : (store_to_block s1 (.blk { next_block := nxt, data := c }) nb).block_map.getD
            nxt false = true := by
          dsimp only [store_to_block]
          rw [hs1_bm]
          exact getD_set_self s.block_map nxt hnxt_lt
        have hfresh2 : assocGet (store_to_block s1 (.blk { next_block := nxt, data := c }) nb).store
            nxt = none := by
          dsimp only [store_to_block]
          rw [assocGet_cons_ne _ _ _ _ (fun he => hnxt_ne_nb he.symm), hs1_store]
          exact inv_fresh_none hinv hnxt_bit
        obtain ⟨bs', hhead', hlen', hchain', hcur', hframe', hmono', htail'⟩ :=
          ih (store_to_block s1 (.blk { next_block := nxt, data := c }) nb) nxt s' hok
            (by simp) hinv2 hbit2 hfresh2
        obtain ⟨b0, bt, hbs'⟩ : ∃ b0 bt, bs' = b0 :: bt := by
          cases bs' with
          | nil => cases hhead'
          | cons b0 bt => exact ⟨b0, bt, rfl⟩
        subst hbs'
        have hb0 : nxt = b0 := by
          injection hhead' with hhead'
          exact hhead'.symm
        subst hb0
        have hnb_notin : nb ∉ nxt :: bt := by
          intro hmem
          rcases List.mem_cons.mp hmem with heq | hmem2
          · exact hnxt_ne_nb heq.symm
          · have := htail' nb hmem2
            dsimp only [store_to_block] at this
            rw [hs1_bm, getD_set_true_mono s.block_map nxt nb hbit] at this
            cases this
        refine ⟨nb :: nxt :: bt, rfl, by simpa using hlen', ?_, ?_, ?_, ?_, ?_⟩
        · refine ⟨?_, hchain'⟩
          rw [hframe' nb hnb_notin]
          dsimp only [store_to_block]
          exact assocGet_cons_self _ _ _
        · obtain ⟨lb, hlb, hfdlb⟩ := hcur'
          exact ⟨lb, by rw [List.getLast?_cons_cons]; exact hlb, hfdlb⟩
        · intro j hj
          have hj1 : j ≠ nb := by
            intro he
            exact hj (by rw [he]; exact List.mem_cons_self _ _)
          have hj2 : j ∉ nxt :: bt := by
            intro hmem
            exact hj (List.mem_cons_of_mem _ hmem)
          rw [hframe' j hj2]
          dsimp only [store_to_block]
          rw [assocGet_cons_ne _ _ _ _ (fun he => hj1 he.symm), hs1_store]
        · intro j hjt
          have : (store_to_block s1 (.blk { next_block := nxt, data := c }) nb).block_map.getD
              j false = true := by
            dsimp only [store_to_block]
            rw [hs1_bm]
            exact getD_set_true_mono s.block_map nxt j hjt
          exact hmono' j this
        · intro b hb
          rcases List.mem_cons.mp hb with heq | hmem2
          · rw [heq]
            exact hnxt_bit
          · cases hsb : s.block_map.getD b false with
            | false => rfl
            | true =>
              have := htail' b hmem2
              dsimp only [store_to_block] at this
              rw [hs1_bm, getD_set_true_mono s.block_map nxt b hsb] at this
              cases this

/-- Claim C5: a successful write of non-empty data splits it into consecutive
chunks of at most `RAW_BLK_SIZE = 992` bytes whose concatenation is the data;
each chunk is stored in a freshly allocated block linking to the block of the
next chunk, the last one linking to `0xFFFFFFFF`; the previous terminal (the
inode's `data_block` for an unset cursor, the previous terminal `Block`'s
`next_block` otherwise) points at the first new block; the cursor ends at the
last stored block; and the call returns `data.length`. -/
theorem write_spec (s : PinoqSt) (ino fh : Nat) (data : List Nat) (n : Nat) (s' : PinoqSt)
    (hdata : data ≠ [])
    (hinv : StInv s)
    (hok : write s ino fh data = .ok (n, s')) :
    n = data.length ∧
    (chunksOf RAW_BLK_SIZE data).flatten = data ∧
    (∀ c ∈ chunksOf RAW_BLK_SIZE data, c.length ≤ RAW_BLK_SIZE) ∧
    ∃ bs : List Nat,
      bs.length = (chunksOf RAW_BLK_SIZE data).length ∧
      (∀ b ∈ bs, s.block_map.getD b false = false) ∧
      chainAt s'.store bs (chunksOf RAW_BLK_SIZE data) ∧
      (∃ lb, bs.getLast? = some lb ∧ assocGet s'.fd_manager fh = some ⟨some lb⟩) ∧
      (∃ hd, bs.head? = some hd ∧
        (match cursorOf s fh with
         | some t => ∃ bOld : Block, getBlock s t = .ok bOld ∧
             assocGet s'.store t = some (.blk { next_block := hd, data := bOld.data })
         | none => ∃ nd : INode, getINode s ino = .ok nd ∧
             assocGet s'.store ino = some (.inode { nd with data_block := hd }))) := by
  have hcs_ne : chunksOf RAW_BLK_SIZE data ≠ [] :=
    chunksOf_ne_nil RAW_BLK_SIZE data hdata
  have hflat : (chunksOf RAW_BLK_SIZE data).flatten = data :=
    chunksOfF_flatten RAW_BLK_SIZE (by decide) data.length data le_rfl
  have hsizes : ∀ c ∈ chunksOf RAW_BLK_SIZE data, c.length ≤ RAW_BLK_SIZE :=
    fun c hc => chunksOfF_mem_length RAW_BLK_SIZE data.length data c hc
  unfold write at hok
  cases halloc : allocate_block s with
  | error f => rw [halloc] at hok; cases hok
  | ok p =>
    obtain ⟨first, s1⟩ := p
    rw [halloc] at hok
    obtain ⟨hf, hs1⟩ := allocate_ok_dest halloc
    have hs1_store : s1.store = s.store := by rw [hs1]
    have hs1_bm : s1.block_map = s.block_map.set first true := by rw [hs1]
    have hfdm : s1.fd_manager = s.fd_manager := by rw [hs1]
    have hfirst_bit : s.block_map.getD first false = false := (findFreeIdx_some _ _ hf).1
    have hfirst_lt : first < s.block_map.length := (findFreeIdx_some _ _ hf).2.1
    dsimp only at hok
    rw [hfdm] at hok
    cases hfd : assocGet s.fd_manager fh with
    | some d =>
      rw [hfd] at hok
      dsimp only at hok
      cases hnb : d.next_block with
      | some t =>
        rw [hnb] at hok
        dsimp only at hok
        have hgbe : getBlock s1 t = getBlock s t := by unfold getBlock; rw [hs1_store]
        rw [hgbe] at hok
        cases hgb : getBlock s t with
        | error f => rw [hgb] at hok; cases hok
        | ok bOld =>
          rw [hgb] at hok
          dsimp only at hok
          have ht_bit : s.block_map.getD t false = true :=
            inv_getD_true hinv (getBlock_ok s t bOld hgb)
          have htf : t ≠ first := by
            intro he
            rw [he, hfirst_bit] at ht_bit
            cases ht_bit
          have hbm3 : (store_to_block s1 (.blk { bOld with next_block := first }) t).block_map
              = s.block_map.set first true := by
            dsimp only [store_to_block]
            exact hs1_bm
          have hinv3 : StInv (store_to_block s1 (.blk { bOld with next_block := first }) t) := by
            refine inv_store (inv_allocate hinv halloc) ?_
            rw [hs1_bm]
            exact getD_set_true_mono s.block_map first t ht_bit
          have hbit3 : (store_to_block s1 (.blk { bOld with next_block := first }) t).block_map.getD
              first false = true := by
            rw [hbm3]
            exact getD_set_self s.block_map first hfirst_lt
          have hfresh3 : assocGet
              (store_to_block s1 (.blk { bOld with next_block := first }) t).store first = none := by
            dsimp only [store_to_block]
            rw [assocGet_cons_ne _ _ _ _ htf, hs1_store]
            exact inv_fresh_none hinv hfirst_bit
          cases hloop : write_loop fh (store_to_block s1 (.blk { bOld with next_block := first }) t)
              first (chunksOf RAW_BLK_SIZE data) with
          | error f => rw [hloop] at hok; cases hok
          | ok s4 =>
            rw [hloop] at hok
            injection hok with hok
            injection hok with hn hs'
            cases hn
            cases hs'
            obtain ⟨bs, hhead, hlen, hchain, hcur, hframe, hmono, htail⟩ :=
              write_loop_ok fh (chunksOf RAW_BLK_SIZE data) _ first s4 hloop hcs_ne
                hinv3 hbit3 hfresh3
            obtain ⟨b0, bt, hbs⟩ : ∃ b0 bt, bs = b0 :: bt := by
              cases bs with
              | nil => cases hhead
              | cons b0 bt => exact ⟨b0, bt, rfl⟩
            subst hbs
            have hb0 : first = b0 := by
              injection hhead with hhead
              exact hhead.symm
            subst hb0
            have hcurs : cursorOf s fh = some t := by simp [cursorOf, hfd, hnb]
            have ht_notin : t ∉ first :: bt := by
              intro hmem
              rcases List.mem_cons.mp hmem with heq | hmem2
              · rw [heq, hfirst_bit] at ht_bit
                cases ht_bit
              · have := htail t hmem2
                rw [hbm3, getD_set_true_mono s.block_map first t ht_bit] at this
                cases this
            refine ⟨rfl, hflat, hsizes, first :: bt, hlen, ?_, hchain, hcur, first, rfl, ?_⟩
            · intro b hb
              rcases List.mem_cons.mp hb with heq | hmem2
              · rw [heq]
                exact hfirst_bit
              · cases hsb : s.block_map.getD b false with
                | false => rfl
                | true =>
                  have := htail b hmem2
                  rw [hbm3, getD_set_true_mono s.block_map first b hsb] at this
                  cases this
            · rw [hcurs]
              refine ⟨bOld, hgb, ?_⟩
              dsimp only [store_aspect]
              rw [hframe t ht_notin]
              dsimp only [store_to_block]
              exact assocGet_cons_self _ _ _
      | none =>
        rw [hnb] at hok
        dsimp only at hok
        have hgie : getINode s1 ino = getINode s ino := by unfold getINode; rw [hs1_store]
        rw [hgie] at hok
        cases hgi : getINode s ino with
        | error f => rw [hgi] at hok; cases hok
        | ok nd =>
          rw [hgi] at hok
          dsimp only at hok
          have hino_bit : s.block_map.getD ino false = true :=
            inv_getD_true hinv (getINode_ok s ino nd hgi)
          have hinof : ino ≠ first := by
            intro he
            rw [he, hfirst_bit] at hino_bit
            cases hino_bit
          have hbm3 : (store_to_block s1 (.inode { nd with data_block := first }) ino).block_map
              = s.block_map.set first true := by
            dsimp only [store_to_block]
            exact hs1_bm
          have hinv3 : StInv (store_to_block s1 (.inode { nd with data_block := first }) ino) := by
            refine inv_store (inv_allocate hinv halloc) ?_
            rw [hs1_bm]
            exact getD_set_true_mono s.block_map first ino hino_bit
          have hbit3 : (store_to_block s1 (.inode { nd with data_block := first })
              ino).block_map.getD first false = true := by
            rw [hbm3]
            exact getD_set_self s.block_map first hfirst_lt
          have hfresh3 : assocGet
              (store_to_block s1 (.inode { nd with data_block := first }) ino).store first
              = none := by
            dsimp only [store_to_block]
            rw [assocGet_cons_ne _ _ _ _ hinof, hs1_store]
            exact inv_fresh_none hinv hfirst_bit
          cases hloop : write_loop fh (store_to_block s1 (.inode { nd with data_block := first }) ino)
              first (chunksOf RAW_BLK_SIZE data) with
          | error f => rw [hloop] at hok; cases hok
          | ok s4 =>
            rw [hloop] at hok
            injection hok with hok
            injection hok with hn hs'
            cases hn
            cases hs'
            obtain ⟨bs, hhead, hlen, hchain, hcur, hframe, hmono, htail⟩ :=
              write_loop_ok fh (chunksOf RAW_BLK_SIZE data) _ first s4 hloop hcs_ne
                hinv3 hbit3 hfresh3
            obtain ⟨b0, bt, hbs⟩ : ∃ b0 bt, bs = b0 :: bt := by
              cases bs with
              | nil => cases hhead
              | cons b0 bt => exact ⟨b0, bt, rfl⟩
            subst hbs
            have hb0 : first = b0 := by
              injection hhead with hhead
              exact hhead.symm
            subst hb0
            have hcurs : cursorOf s fh = none := by simp [cursorOf, hfd, hnb]
            have hino_notin : ino ∉ first :: bt := by
              intro hmem
              rcases List.mem_cons.mp hmem with heq | hmem2
              · rw [heq, hfirst_bit] at hino_bit
                cases hino_bit
              · have := htail ino hmem2
                rw [hbm3, getD_set_true_mono s.block_map first ino hino_bit] at this
                cases this
            refine ⟨rfl, hflat, hsizes, first :: bt, hlen, ?_, hchain, hcur, first, rfl, ?_⟩
            · intro b hb
              rcases List.mem_cons.mp hb with heq | hmem2
              · rw [heq]
                exact hfirst_bit
              · cases hsb : s.block_map.getD b false with
                | false => rfl
                | true =>
                  have := htail b hmem2
                  rw [hbm3, getD_set_true_mono s.block_map first b hsb] at this
                  cases this
            · rw [hcurs]
              refine ⟨nd, rfl, ?_⟩
              dsimp only [store_aspect]
              rw [hframe ino hino_notin]
              dsimp only [store_to_block]
              exact assocGet_cons_self _ _ _
    | none =>
      rw [hfd] at hok
      dsimp only at hok
      have hgie : getINode { s1 with fd_manager := (fh, (⟨none⟩ : FileDescriptor)) :: s.fd_manager }
          ino = getINode s ino := by
        unfold getINode
        dsimp only
        rw [hs1_store]
      rw [hgie] at hok
      cases hgi : getINode s ino with
      | error f => rw [hgi] at hok; cases hok
      | ok nd =>
        rw [hgi] at hok
        dsimp only at hok
        have hino_bit : s.block_map.getD ino false = true :=
          inv_getD_true hinv (getINode_ok s ino nd hgi)
        have hinof : ino ≠ first := by
          intro he
          rw [he, hfirst_bit] at hino_bit
          cases hino_bit
        have hbm3 : (store_to_block
            { s1 with fd_manager := (fh, (⟨none⟩ : FileDescriptor)) :: s.fd_manager }
            (.inode { nd with data_block := first }) ino).block_map
            = s.block_map.set first true := by
          dsimp only [store_to_block]
          exact hs1_bm
        have hinv3 : StInv (store_to_block
            { s1 with fd_manager := (fh, (⟨none⟩ : FileDescriptor)) :: s.fd_manager }
            (.inode { nd with data_block := first }) ino) := by
          refine inv_store (s := { s1 with
              fd_manager := (fh, (⟨none⟩ : FileDescriptor)) :: s.fd_manager }) ?_ ?_
          · show StInv s1
            exact inv_allocate hinv halloc
          · dsimp only
            rw [hs1_bm]
            exact getD_set_true_mono s.block_map first ino hino_bit
        have hbit3 : (store_to_block
            { s1 with fd_manager := (fh, (⟨none⟩ : FileDescriptor)) :: s.fd_manager }
            (.inode { nd with data_block := first }) ino).block_map.getD first false = true := by
          rw [hbm3]
          exact getD_set_self s.block_map first hfirst_lt
        have hfresh3 : assocGet (store_to_block
            { s1 with fd_manager := (fh, (⟨none⟩ : FileDescriptor)) :: s.fd_manager }
            (.inode { nd with data_block := first }) ino).store first = none := by
          dsimp only [store_to_block]
          rw [assocGet_cons_ne _ _ _ _ hinof, hs1_store]
          exact inv_fresh_none hinv hfirst_bit
        cases hloop : write_loop fh (store_to_block
            { s1 with fd_manager := (fh, (⟨none⟩ : FileDescriptor)) :: s.fd_manager }
            (.inode { nd with data_block := first }) ino)
            first (chunksOf RAW_BLK_SIZE data) with
        | error f => rw [hloop] at hok; cases hok
        | ok s4 =>
          rw [hloop] at hok
          injection hok with hok
          injection hok with hn hs'
          cases hn
          cases hs'
          obtain ⟨bs, hhead, hlen, hchain, hcur, hframe, hmono, htail⟩ :=
            write_loop_ok fh (chunksOf RAW_BLK_SIZE data) _ first s4 hloop hcs_ne
              hinv3 hbit3 hfresh3
          obtain ⟨b0, bt, hbs⟩ : ∃ b0 bt, bs = b0 :: bt := by
            cases bs with
            | nil => cases hhead
            | cons b0 bt => exact ⟨b0, bt, rfl⟩
          subst hbs
          have hb0 : first = b0 := by
            injection hhead with hhead
            exact hhead.symm
          subst hb0
          have hcurs : cursorOf s fh = none := by simp [cursorOf, hfd]
          have hino_notin : ino ∉ first :: bt := by
            intro hmem
            rcases List.mem_cons.mp hmem with heq | hmem2
            · rw [heq, hfirst_bit] at hino_bit
              cases hino_bit
            · have := htail ino hmem2
              rw [hbm3, getD_set_true_mono s.block_map first ino hino_bit] at this
              cases this
          refine ⟨rfl, hflat, hsizes, first :: bt, hlen, ?_, hchain, hcur, first, rfl, ?_⟩
          · intro b hb
            rcases List.mem_cons.mp hb with heq | hmem2
            · rw [heq]
              exact hfirst_bit
            · cases hsb : s.block_map.getD b false with
              | false => rfl
              | true =>
                have := htail b hmem2
                rw [hbm3, getD_set_true_mono s.block_map first b hsb] at this
                cases this
          · rw [hcurs]
            refine ⟨nd, rfl, ?_⟩
            dsimp only [store_aspect]
            rw [hframe ino hino_notin]
            dsimp only [store_to_block]
            exact assocGet_cons_self _ _ _

/-- Final state of writing `[9]` on handle 5 (cursor at block 1) over `RdSt`. -/
def W5St : PinoqSt :=
  { RdStA with
    fd_manager := (5, ⟨some 0⟩) :: RdSt.fd_manager,
    store := (0, .blk { next_block := 0xFFFFFFFF, data := [9] }) ::
      (1, .blk { next_block := 0, data := [42] }) :: RdSt.store,
    keyctr := 1 }

theorem write_spec_witness :
    ([9] : List Nat) ≠ [] ∧
    StInv RdSt ∧
    write RdSt 0 5 [9] = .ok (1, W5St) ∧
    (1 = ([9] : List Nat).length ∧
     (chunksOf RAW_BLK_SIZE [9]).flatten = [9] ∧
     (∀ c ∈ chunksOf RAW_BLK_SIZE [9], c.length ≤ RAW_BLK_SIZE) ∧
     ∃ bs : List Nat,
       bs.length = (chunksOf RAW_BLK_SIZE [9]).length ∧
       (∀ b ∈ bs, RdSt.block_map.getD b false = false) ∧
       chainAt W5St.store bs (chunksOf RAW_BLK_SIZE [9]) ∧
       (∃ lb, bs.getLast? = some lb ∧ assocGet W5St.fd_manager 5 = some ⟨some lb⟩) ∧
       (∃ hd, bs.head? = some hd ∧
         (match cursorOf RdSt 5 with
          | some t => ∃ bOld : Block, getBlock RdSt t = .ok bOld ∧
              assocGet W5St.store t = some (.blk { next_block := hd, data := bOld.data })
          | none => ∃ nd : INode, getINode RdSt 0 = .ok nd ∧
              assocGet W5St.store 0 = some (.inode { nd with data_block := hd })))) :=
  ⟨by decide, by decide, by decide,
   write_spec RdSt 0 5 [9] 1 W5St (by decide) (by decide) (by decide)⟩
